import Mathlib

/-!
Verification of the tiered-coin collection core (`fedimint-api/src/tiered_multi.rs`).

The Rust `TieredMulti<T>` is a `BTreeMap<Amount, Vec<T>>`: an ordered map from a
denomination tier (an `Amount`, a `u64` count of millisatoshis) to the ordered
sequence of coins held at that tier.  We embed it as an association list of
`(Nat × List T)` pairs; the `BTreeMap` key invariant (strictly ascending,
duplicate-free keys) is the predicate `sortedTiers` and is assumed where a claim
depends on key order.  `Amount` values are embedded as `Nat`: the source documents
that callers must bound coin counts and amounts so that the `u64` total never
overflows, and the fatal-on-underflow subtraction of `Amount` is modelled
explicitly with `Option` (`none` = abort) at each place the source may hit it.
-/

namespace Fedimint

/-- `TieredMulti<T>`: the `BTreeMap<Nat, Vec<T>>` as an association list. -/
abbrev TieredMulti (T : Type) := List (Nat × List T)

/-- `Tiered<K>`: the sibling `BTreeMap<Nat, K>` (one payload per tier). -/
abbrev Tiered (K : Type) := List (Nat × K)

/-- The `BTreeMap` key invariant: keys strictly ascending (hence duplicate-free). -/
def sortedTiers {α : Type} (l : List (Nat × α)) : Prop :=
  (l.map Prod.fst).Pairwise (fun a b => a < b)

instance {α : Type} (l : List (Nat × α)) : Decidable (sortedTiers l) := by
  unfold sortedTiers; infer_instance

/-- `TieredMulti::total_amount`: `Σ tier.msats * coins.len()`. -/
def total_amount {T : Type} (c : TieredMulti T) : Nat :=
  (c.map (fun p => p.1 * p.2.length)).sum

/-- `TieredMulti::item_count`: `Σ coins.len()`. -/
def item_count {T : Type} (c : TieredMulti T) : Nat :=
  (c.map (fun p => p.2.length)).sum

/-- `TieredMulti::tier_count`: number of keys of the map. -/
def tier_count {T : Type} (c : TieredMulti T) : Nat :=
  c.length

/-- `TieredMulti::tiers`: the keys, in map (ascending) order. -/
def tiers {T : Type} (c : TieredMulti T) : List Nat :=
  c.map Prod.fst

/-- `TieredMulti::is_empty`: `self.item_count() == 0`. -/
def is_empty {T : Type} (c : TieredMulti T) : Bool :=
  item_count c == 0

/-- `BTreeMap::get` on a `Tiered` association list. -/
def tieredGet {α : Type} (m : List (Nat × α)) (a : Nat) : Option α :=
  (m.find? (fun p => p.1 == a)).map Prod.snd

/-- `TieredMulti::check_tiers`: the first key (in map order) absent from `keys`
becomes `InvalidAmountTierError(amt)`, embedded as `Except.error amt`. -/
def check_tiers {T K : Type} (c : TieredMulti T) (keys : Tiered K) : Except Nat Unit :=
  match c.find? (fun p => (tieredGet keys p.1).isNone) with
  | some p => Except.error p.1
  | none => Except.ok ()

/-- `TieredMulti::iter_items`: all `(tier, coin)` pairs, lowest tier first, then
within a tier in insertion order. -/
def iter_items {T : Type} : TieredMulti T → List (Nat × T)
  | [] => []
  | (a, cs) :: rest => cs.map (fun c => (a, c)) ++ iter_items rest

/-- `TieredMulti::structural_eq`: same key sequence and, pairwise, same per-tier
coin counts (item contents are not compared). -/
def structural_eq {T O : Type} (c₁ : TieredMulti T) (c₂ : TieredMulti O) : Bool :=
  (tiers c₁ == tiers c₂)
    && (((c₁.map Prod.snd).zip (c₂.map Prod.snd)).all (fun q => q.1.length == q.2.length))

/-- Per-tier body of `TieredMulti::map`: `coins.into_iter().map(|c| f(amt, c)).collect::<Result<_,_>>()`. -/
def mapItems {T N E : Type} (f : Nat → T → Except E N) (a : Nat) :
    List T → Except E (List N)
  | [] => Except.ok []
  | c :: cs =>
    match f a c with
    | Except.error e => Except.error e
    | Except.ok n =>
      match mapItems f a cs with
      | Except.error e => Except.error e
      | Except.ok ns => Except.ok (n :: ns)

/-- `TieredMulti::map`: applies `f` to every item tier by tier, short-circuiting on
the first error (the whole partial result is discarded). -/
def mapColl {T N E : Type} (f : Nat → T → Except E N) :
    TieredMulti T → Except E (TieredMulti N)
  | [] => Except.ok []
  | (a, cs) :: rest =>
    match mapItems f a cs with
    | Except.error e => Except.error e
    | Except.ok ns =>
      match mapColl f rest with
      | Except.error e => Except.error e
      | Except.ok r => Except.ok ((a, ns) :: r)

/-- `BTreeMap::entry(amt).or_default().push(coin)`: insert `coin` at the end of the
sequence of tier `amt`, creating the tier at its sorted position if absent. -/
def insertItem {T : Type} (amt : Nat) (coin : T) : TieredMulti T → TieredMulti T
  | [] => [(amt, [coin])]
  | (a, cs) :: rest =>
    if amt < a then (amt, [coin]) :: (a, cs) :: rest
    else if amt = a then (a, cs ++ [coin]) :: rest
    else (a, cs) :: insertItem amt coin rest

/-- `FromIterator for TieredMulti` (via `Extend`): fold `insertItem` over the pairs. -/
def ofItems {T : Type} (items : List (Nat × T)) : TieredMulti T :=
  items.foldl (fun m p => insertItem p.1 p.2 m) []

/-!  Selection Engine (`TieredMulti::select_coins`).

The scan iterates `iter_items().rev()` (highest tier first, within a tier
last-inserted first) keeping `remaining = total so far not yet given up`.
The Rust `remaining - coin_amount` is `Amount` subtraction, fatal on underflow;
the scan therefore returns `none` (= abort) when `remaining < coin_amount`.
On `amount <= remaining - coin_amount` the coin is dropped and `remaining`
decremented, otherwise the coin is kept.  The scan returns the final
`remaining` and the kept `(tier, coin)` pairs in scan order. -/

/-- The `filter_map` loop of `select_coins` (`none` models the fatal `Amount`
underflow panic inside `remaining - coin_amount`). -/
def selectScan {T : Type} (amount : Nat) :
    List (Nat × T) → Nat → Option (Nat × List (Nat × T))
  | [], remaining => some (remaining, [])
  | (ca, c) :: rest, remaining =>
    if remaining < ca then none
    else if amount ≤ remaining - ca then
      selectScan amount rest (remaining - ca)
    else
      (selectScan amount rest remaining).map (fun p => (p.1, (ca, c) :: p.2))

/-- `TieredMulti::select_coins`.  Outcomes: `none` = fatal underflow abort
(proved unreachable below), `some none` = infeasible target (`None` in Rust),
`some (some r)` = selected sub-collection `r`, collected via `FromIterator`. -/
def select_coins {T : Type} (c : TieredMulti T) (amount : Nat) :
    Option (Option (TieredMulti T)) :=
  if total_amount c < amount then some none
  else
    match selectScan amount (iter_items c).reverse (total_amount c) with
    | none => none
    | some p => some (some (ofItems p.2))

/-!  Representation Engine (`TieredMulti::represent_amount`). -/

/-- `BTreeMap::get_mut_or_default(a)` followed by writing `f current` (with
`f 0` when the key was absent; insertion keeps the sorted position). -/
def tieredUpdate (m : Tiered Nat) (a : Nat) (f : Nat → Nat) : Tiered Nat :=
  match m with
  | [] => [(a, f 0)]
  | (k, v) :: rest =>
    if a < k then (a, f 0) :: (k, v) :: rest
    else if a = k then (k, f v) :: rest
    else (k, v) :: tieredUpdate rest a f

/-- Phase 1 of `represent_amount`: ascending over the catalog tiers, add
`min(remaining / tier, sets ⊖ current_count)` notes at each tier.  `none`
models the fatal paths: division by a zero tier and `Amount` underflow in
`remaining_amount -= tier * add_notes`. -/
def phase1 {V : Type} (cur : TieredMulti V) (sets : Nat) :
    List Nat → Nat → Tiered Nat → Option (Nat × Tiered Nat)
  | [], rem, d => some (rem, d)
  | t :: ts, rem, d =>
    if t = 0 then none
    else
      let notes := ((tieredGet cur t).map List.length).getD 0
      let missing := sets - notes
      let possible := rem / t
      let add := min possible missing
      if t * add ≤ rem then
        phase1 cur sets ts (rem - t * add) (tieredUpdate d t (fun _ => add))
      else none

/-- Phase 2 of `represent_amount`: descending over the catalog tiers, add
`remaining / tier` notes and keep `remaining % tier`.  `none` models the fatal
division by a zero tier. -/
def phase2 : List Nat → Nat → Tiered Nat → Option (Nat × Tiered Nat)
  | [], rem, d => some (rem, d)
  | t :: ts, rem, d =>
    if t = 0 then none
    else phase2 ts (rem % t) (tieredUpdate d t (fun v => v + rem / t))

/-- `TieredMulti::represent_amount`: phase 1 then phase 2 over
`tiers.tiers().rev()`, then the `assert_eq!(represented, amount.msats)`
post-condition check; a failed assert (a Rust abort) is `none`. -/
def represent_amount {V K : Type} (amount : Nat) (cur : TieredMulti V)
    (cat : Tiered K) (sets : Nat) : Option (Tiered Nat) :=
  match phase1 cur sets (cat.map Prod.fst) amount [] with
  | none => none
  | some p1 =>
    match phase2 (cat.map Prod.fst).reverse p1.1 p1.2 with
    | none => none
    | some p2 =>
      if (p2.2.map (fun p => p.1 * p.2)).sum = amount then some p2.2 else none

/-!  Peer-Share Zipper (`TieredMultiZip`). -/

/-- Outcome of one `TieredMultiZip::next` call: `fatal` = a failed
`assert_eq!`/`expect` (abort), `done` = `None` (iteration over), `yield` =
`Some((amount, coins))`. -/
inductive ZipStep (C : Type) where
  | fatal : ZipStep C
  | done : ZipStep C
  | yield : Nat → List C → ZipStep C
  deriving DecidableEq

/-- Prepend a pulled coin onto a successful step; aborts and ends pass through. -/
def consStep {C : Type} (c : C) : ZipStep C → ZipStep C
  | ZipStep.yield a cs => ZipStep.yield a (c :: cs)
  | s => s

/-- The `for iter in self.iters` loop of `TieredMultiZip::next`, with `amount`
the running first-pulled tier: a pulled element of another tier is `fatal`
(`assert_eq!(amount, amt)`), an exhausted iterator returns `done` at once (the
Rust `None => return None`), and an empty iterator vector trips the final
`expect` (`fatal`). -/
def zipNextGo {C : Type} : Option Nat → List (List (Nat × C)) → ZipStep C
  | some a, [] => ZipStep.yield a []
  | none, [] => ZipStep.fatal
  | _, [] :: _ => ZipStep.done
  | some a, ((amt, coin) :: _) :: rest =>
    if amt = a then consStep coin (zipNextGo (some a) rest) else ZipStep.fatal
  | none, ((amt, coin) :: _) :: rest => consStep coin (zipNextGo (some amt) rest)

/-- `TieredMultiZip::next` on the current per-peer iterator states. -/
def zipNext {C : Type} (iters : List (List (Nat × C))) : ZipStep C :=
  zipNextGo none iters

/-- `TieredMultiZip::new`: `assert!(!iters.is_empty())`; `none` = abort. -/
def zipNew {C : Type} (iters : List (List (Nat × C))) :
    Option (List (List (Nat × C))) :=
  match iters with
  | [] => none
  | _ => some iters

/-- Iterator states after a successful `next` (each peer advanced by one). -/
def zipTails {C : Type} (iters : List (List (Nat × C))) :
    List (List (Nat × C)) :=
  iters.map List.tail

/-- Run the zipper for at most `fuel` yields, recording the yielded steps;
`none` = a fatal step (or fuel too small to reach the end). -/
def zipRun {C : Type} : Nat → List (List (Nat × C)) → Option (List (Nat × List C))
  | 0, iters =>
    match zipNext iters with
    | ZipStep.done => some []
    | _ => none
  | fuel + 1, iters =>
    match zipNext iters with
    | ZipStep.done => some []
    | ZipStep.fatal => none
    | ZipStep.yield a cs => (zipRun fuel (zipTails iters)).map (fun r => (a, cs) :: r)

/-- The head coins of the peer iterators, in peer order. -/
def headItems {C : Type} : List (List (Nat × C)) → List C
  | [] => []
  | [] :: rest => headItems rest
  | ((_, c) :: _) :: rest => c :: headItems rest

/-- The aligned groups the zipper is expected to produce from peer sequences
sharing the tier sequence `A`. -/
def zipExpected {C : Type} : List Nat → List (List (Nat × C)) → List (Nat × List C)
  | [], _ => []
  | a :: A, iters => (a, headItems iters) :: zipExpected A (zipTails iters)

/-!  Spec-worded mirror of the selection scan (claim C4 / spec §4.2). -/

/-- Follows the wording of claim C4: iterate items from highest tier to lowest
(within a tier last-inserted first), keep a running remaining value, exclude an
item whenever `t <= remaining - item_tier` (decrementing `remaining`), include
it otherwise. -/
def selectScanSpec {T : Type} (amount : Nat) :
    List (Nat × T) → Nat → List (Nat × T)
  | [], _ => []
  | (ca, c) :: rest, remaining =>
    if amount ≤ remaining - ca then selectScanSpec amount rest (remaining - ca)
    else (ca, c) :: selectScanSpec amount rest remaining

/-- Total tier value of a flat `(tier, item)` list. -/
def valueOf {T : Type} (l : List (Nat × T)) : Nat :=
  (l.map Prod.fst).sum

theorem valueOf_nil {T : Type} : valueOf ([] : List (Nat × T)) = 0 := rfl

theorem valueOf_cons {T : Type} (a : Nat) (c : T) (l : List (Nat × T)) :
    valueOf ((a, c) :: l) = a + valueOf l := by
  simp [valueOf]

theorem valueOf_append {T : Type} (l₁ l₂ : List (Nat × T)) :
    valueOf (l₁ ++ l₂) = valueOf l₁ + valueOf l₂ := by
  simp [valueOf]

theorem valueOf_reverse {T : Type} (l : List (Nat × T)) :
    valueOf l.reverse = valueOf l := by
  simp [valueOf, List.map_reverse, List.sum_reverse]

theorem valueOf_map_pair {T : Type} (a : Nat) (cs : List T) :
    valueOf (cs.map (fun c => (a, c))) = a * cs.length := by
  induction cs with
  | nil => rfl
  | cons c cs ih =>
    simp only [List.map_cons, valueOf_cons, List.length_cons, ih, Nat.mul_succ]
    ring

theorem total_amount_cons {T : Type} (a : Nat) (cs : List T) (rest : TieredMulti T) :
    total_amount ((a, cs) :: rest) = a * cs.length + total_amount rest := by
  simp [total_amount]

theorem valueOf_iter_items {T : Type} (c : TieredMulti T) :
    valueOf (iter_items c) = total_amount c := by
  induction c with
  | nil => rfl
  | cons p rest ih =>
    obtain ⟨a, cs⟩ := p
    rw [iter_items, valueOf_append, valueOf_map_pair, ih, total_amount_cons]

/-- Core invariant of the selection scan: as long as the items still to be
scanned are worth no more than `rem`, the scan never hits the fatal underflow,
agrees with the claim-worded scan, keeps `value of kept items + rem = value of
scanned items + final remaining`, and never lets the final remaining drop
below a feasible `amount`. -/
theorem selectScan_spec_aux {T : Type} (amount : Nat) :
    ∀ (l : List (Nat × T)) (rem : Nat), valueOf l ≤ rem →
      ∃ r, selectScan amount l rem = some (r, selectScanSpec amount l rem)
        ∧ valueOf (selectScanSpec amount l rem) + rem = valueOf l + r
        ∧ (amount ≤ rem → amount ≤ r) := by
  intro l
  induction l with
  | nil =>
    intro rem _
    exact ⟨rem, rfl, by simp [selectScanSpec, valueOf_nil], fun h => h⟩
  | cons p rest ih =>
    intro rem hle
    obtain ⟨ca, c⟩ := p
    have hv : valueOf ((ca, c) :: rest) = ca + valueOf rest := valueOf_cons ca c rest
    have hca : ca ≤ rem := by omega
    by_cases hbr : amount ≤ rem - ca
    · obtain ⟨r, heq, hsum, himp⟩ := ih (rem - ca) (by omega)
      refine ⟨r, ?_, ?_, fun _ => himp hbr⟩
      · simp only [selectScan, selectScanSpec, if_neg (Nat.not_lt.mpr hca), if_pos hbr]
        exact heq
      · simp only [selectScanSpec, if_pos hbr]
        omega
    · obtain ⟨r, heq, hsum, himp⟩ := ih rem (by omega)
      refine ⟨r, ?_, ?_, himp⟩
      · simp only [selectScan, selectScanSpec, if_neg (Nat.not_lt.mpr hca), if_neg hbr, heq]
        rfl
      · simp only [selectScanSpec, if_neg hbr, valueOf_cons]
        omega

theorem total_amount_insertItem {T : Type} (a : Nat) (c : T) (m : TieredMulti T) :
    total_amount (insertItem a c m) = a + total_amount m := by
  induction m with
  | nil => simp [insertItem, total_amount]
  | cons p rest ih =>
    obtain ⟨k, cs⟩ := p
    by_cases h1 : a < k
    · simp only [insertItem, if_pos h1, total_amount_cons, List.length_cons,
        List.length_nil]
      ring
    · by_cases h2 : a = k
      · subst h2
        simp only [insertItem, if_neg h1, eq_self_iff_true, if_true, total_amount_cons,
          List.length_append, List.length_cons, List.length_nil]
        ring
      · simp only [insertItem, if_neg h1, if_neg h2, total_amount_cons, ih]
        ring

theorem total_amount_ofItems_aux {T : Type} :
    ∀ (items : List (Nat × T)) (init : TieredMulti T),
      total_amount (items.foldl (fun m p => insertItem p.1 p.2 m) init)
        = total_amount init + valueOf items := by
  intro items
  induction items with
  | nil => intro init; simp [valueOf_nil]
  | cons p rest ih =>
    intro init
    obtain ⟨a, c⟩ := p
    rw [List.foldl_cons, ih, total_amount_insertItem, valueOf_cons]
    omega

theorem total_amount_ofItems {T : Type} (items : List (Nat × T)) :
    total_amount (ofItems items) = valueOf items := by
  rw [ofItems, total_amount_ofItems_aux]
  simp [total_amount]

/-- C1: for every collection `C` and target `t`, if `t ≤ C.total_value()` then
`select_coins(C, t)` returns a result (no panic, no absence) whose total value
is at least `t`; if `t > C.total_value()` it returns `None` (`some none` here:
infeasibility is an absent result, not an error and not the fatal `none`). -/
theorem c1_select_coins : ∀ (T : Type) (c : TieredMulti T) (t : Nat),
    (t ≤ total_amount c →
      ∃ r, select_coins c t = some (some r) ∧ t ≤ total_amount r)
    ∧ (total_amount c < t → select_coins c t = some none) := by
  intro T c t
  constructor
  · intro ht
    have hval : valueOf (iter_items c).reverse = total_amount c := by
      rw [valueOf_reverse, valueOf_iter_items]
    obtain ⟨r, heq, hsum, himp⟩ :=
      selectScan_spec_aux t (iter_items c).reverse (total_amount c) (le_of_eq hval)
    refine ⟨ofItems (selectScanSpec t (iter_items c).reverse (total_amount c)), ?_, ?_⟩
    · rw [select_coins, if_neg (Nat.not_lt.mpr ht), heq]
    · rw [total_amount_ofItems]
      omega
  · intro ht
    rw [select_coins, if_pos ht]

/-- C1 witness: a concrete feasible selection. -/
theorem c1_select_coins_witness :
    ∃ r, select_coins ([(1000, [()])] : TieredMulti Unit) 500 = some (some r)
      ∧ 500 ≤ total_amount r :=
  (c1_select_coins Unit [(1000, [()])] 500).1 (by decide)

/-- C8: under the feasibility precondition `t ≤ C.total_value()` the fatal
`Amount` underflow in `remaining - coin_amount` is unreachable
(`select_coins` never returns the abort outcome `none`); more generally, at
every scan state whose remaining value covers the items still to be scanned,
the current item's tier never exceeds `remaining`, so the scan completes. -/
theorem c8_no_underflow : ∀ (T : Type) (c : TieredMulti T) (t : Nat),
    t ≤ total_amount c →
    select_coins c t ≠ none
    ∧ ∀ (l : List (Nat × T)) (rem : Nat), valueOf l ≤ rem →
        (selectScan t l rem).isSome = true := by
  intro T c t ht
  constructor
  · have hval : valueOf (iter_items c).reverse = total_amount c := by
      rw [valueOf_reverse, valueOf_iter_items]
    obtain ⟨r, heq, -, -⟩ :=
      selectScan_spec_aux t (iter_items c).reverse (total_amount c) (le_of_eq hval)
    rw [select_coins, if_neg (Nat.not_lt.mpr ht), heq]
    simp
  · intro l rem hle
    obtain ⟨r, heq, -, -⟩ := selectScan_spec_aux t l rem hle
    rw [heq]
    rfl

/-- C8 witness: a concrete feasible instance. -/
theorem c8_no_underflow_witness :
    select_coins ([(1000, [()])] : TieredMulti Unit) 1000 ≠ none
    ∧ ∀ (l : List (Nat × Unit)) (rem : Nat), valueOf l ≤ rem →
        (selectScan 1000 l rem).isSome = true :=
  c8_no_underflow Unit [(1000, [()])] 1000 (by decide)

/-- Holdings {1 sat × 5, 5 sat × 5, 20 sat × 5} (amounts in msats). -/
def coins_1_5_20 : TieredMulti Unit :=
  [(1000, [(), (), (), (), ()]), (5000, [(), (), (), (), ()]),
   (20000, [(), (), (), (), ()])]

/-- Holdings {5 sat × 5, 20 sat × 5} (amounts in msats). -/
def coins_5_20 : TieredMulti Unit :=
  [(5000, [(), (), (), (), ()]), (20000, [(), (), (), (), ()])]

/-- C4: on a feasible target, `select_coins` computes exactly the high-to-low
greedy exclusion scan described by the spec (here `selectScanSpec`, worded
from the claim), and on the two worked examples it returns {1 sat × 2,
5 sat × 1} for target 7 sat over {1×5, 5×5, 20×5} and {5 sat × 2} for target
7 sat over {5×5, 20×5}. -/
theorem c4_select_scan :
    (∀ (T : Type) (c : TieredMulti T) (t : Nat), t ≤ total_amount c →
      select_coins c t
        = some (some (ofItems (selectScanSpec t (iter_items c).reverse (total_amount c)))))
    ∧ select_coins coins_1_5_20 7000 = some (some [(1000, [(), ()]), (5000, [()])])
    ∧ select_coins coins_5_20 7000 = some (some [(5000, [(), ()])]) := by
  refine ⟨?_, by decide, by decide⟩
  intro T c t ht
  have hval : valueOf (iter_items c).reverse = total_amount c := by
    rw [valueOf_reverse, valueOf_iter_items]
  obtain ⟨r, heq, -, -⟩ :=
    selectScan_spec_aux t (iter_items c).reverse (total_amount c) (le_of_eq hval)
  rw [select_coins, if_neg (Nat.not_lt.mpr ht), heq]

/-- C4 witness: the general scan characterisation at a concrete input. -/
theorem c4_select_scan_witness :
    select_coins ([(1000, [()])] : TieredMulti Unit) 1000
      = some (some (ofItems (selectScanSpec 1000
          (iter_items ([(1000, [()])] : TieredMulti Unit)).reverse
          (total_amount ([(1000, [()])] : TieredMulti Unit))))) :=
  c4_select_scan.1 Unit [(1000, [()])] 1000 (by decide)

/-!  Queries: emptiness (claim C10) and tier validation (claim C6). -/

/-- C10: `is_empty()` is exactly `item_count() == 0`, so a collection whose
every tier key maps to an empty sequence is reported empty even though its
`tier_count()` is positive — emptiness is decided by item count, not by the
presence of tier keys. -/
theorem c10_is_empty : ∀ (T : Type) (c : TieredMulti T),
    is_empty c = (item_count c == 0)
    ∧ ((∀ p ∈ c, p.2 = ([] : List T)) →
        is_empty c = true ∧ (c ≠ [] → 0 < tier_count c)) := by
  intro T c
  refine ⟨rfl, fun h => ⟨?_, fun hne => ?_⟩⟩
  · have hz : item_count c = 0 := by
      apply List.sum_eq_zero
      intro x hx
      rcases List.mem_map.mp hx with ⟨p, hp, rfl⟩
      simp [h p hp]
    simp [is_empty, hz]
  · simpa [tier_count] using List.length_pos.mpr hne

/-- C10 witness: the all-empty-tiers collection `{5 ↦ []}`. -/
theorem c10_is_empty_witness :
    is_empty ([(5, [])] : TieredMulti Nat) = true
    ∧ 0 < tier_count ([(5, [])] : TieredMulti Nat) := by
  have h := (c10_is_empty Nat [(5, [])]).2 (by simp)
  exact ⟨h.1, h.2 (by simp)⟩

/-- C6: `check_tiers(C, K)` succeeds exactly when every tier key of `C` is a
key of `K`; on failure the reported tier is a key of `C` absent from `K`, and
(for a sorted collection) every smaller key of `C` is present in `K`, i.e. it
is the first offender in ascending iteration order. -/
theorem c6_check_tiers : ∀ (T K : Type) (c : TieredMulti T) (cat : Tiered K),
    (check_tiers c cat = Except.ok ()
      ↔ ∀ a ∈ tiers c, (tieredGet cat a).isSome = true)
    ∧ (∀ a : Nat, sortedTiers c → check_tiers c cat = Except.error a →
        a ∈ tiers c ∧ (tieredGet cat a).isNone = true
          ∧ ∀ b ∈ tiers c, b < a → (tieredGet cat b).isSome = true) := by
  intro T K c cat
  induction c with
  | nil =>
    refine ⟨by simp [check_tiers, tiers], fun a _ he => ?_⟩
    simp [check_tiers] at he
  | cons p rest ih =>
    obtain ⟨k, cs⟩ := p
    by_cases hk : (tieredGet cat k).isNone = true
    · have hfind : check_tiers ((k, cs) :: rest) cat = Except.error k := by
        rw [check_tiers, List.find?_cons_of_pos _ (by simpa using hk)]
      refine ⟨⟨fun h => ?_, fun hall => ?_⟩, fun a hs he => ?_⟩
      · rw [hfind] at h; cases h
      · have hsome := hall k (by simp [tiers])
        rw [Option.isNone_iff_eq_none.mp hk] at hsome
        cases hsome
      · rw [hfind] at he
        injection he with hka
        subst hka
        have hcons := List.pairwise_cons.mp hs
        refine ⟨by simp [tiers], hk, fun b hb hba => ?_⟩
        rcases (by simpa [tiers] using hb : b = k ∨ b ∈ tiers rest) with rfl | hbr
        · omega
        · exact absurd hba (by have := hcons.1 b (by simpa [tiers] using hbr); omega)
    · have hksome : (tieredGet cat k).isSome = true := by
        cases htg : tieredGet cat k with
        | none => exact absurd (by simp [htg]) hk
        | some v => rfl
      have hfind : check_tiers ((k, cs) :: rest) cat = check_tiers rest cat := by
        rw [check_tiers, check_tiers,
          List.find?_cons_of_neg _ (by simpa using hk)]
      refine ⟨⟨fun h => ?_, fun hall => ?_⟩, fun a hs he => ?_⟩
      · rw [hfind] at h
        intro a ha
        rcases (by simpa [tiers] using ha : a = k ∨ a ∈ tiers rest) with rfl | har
        · exact hksome
        · exact (ih.1.mp h) a har
      · rw [hfind]
        exact ih.1.mpr fun a ha => hall a (by simp [tiers] at ha ⊢; exact Or.inr ha)
      · rw [hfind] at he
        have htail : sortedTiers rest := (List.pairwise_cons.mp hs).2
        obtain ⟨har, hnone, hfirst⟩ := ih.2 a htail he
        refine ⟨by simp [tiers] at har ⊢; exact Or.inr har, hnone, fun b hb hba => ?_⟩
        rcases (by simpa [tiers] using hb : b = k ∨ b ∈ tiers rest) with rfl | hbr
        · exact hksome
        · exact hfirst b hbr hba

/-- C6 witness: collection `{2 ↦ [()], 5 ↦ [()]}` against catalog `{2}`:
the check fails and reports tier 5, the first (and only) offender. -/
theorem c6_check_tiers_witness :
    check_tiers ([(2, [()]), (5, [()])] : TieredMulti Unit) ([(2, 0)] : Tiered Nat)
        = Except.error 5
      ∧ (5 : Nat) ∈ tiers ([(2, [()]), (5, [()])] : TieredMulti Unit)
      ∧ (tieredGet ([(2, 0)] : Tiered Nat) 5).isNone = true
      ∧ ∀ b ∈ tiers ([(2, [()]), (5, [()])] : TieredMulti Unit), b < 5 →
          (tieredGet ([(2, 0)] : Tiered Nat) b).isSome = true := by
  have h := (c6_check_tiers Unit Nat [(2, [()]), (5, [()])] [(2, 0)]).2 5
    (by decide) (by rfl)
  exact ⟨rfl, h.1, h.2.1, h.2.2⟩

/-!  Item transformation (`TieredMulti::map`, claim C7). -/

theorem mapItems_ok {T N E : Type} (a : Nat) (g : Nat → T → N) :
    ∀ cs : List T, mapItems (fun x t => (Except.ok (g x t) : Except E N)) a cs
      = Except.ok (cs.map (g a)) := by
  intro cs
  induction cs with
  | nil => rfl
  | cons c cs ih => rw [mapItems, ih]; rfl

theorem mapItems_length {T N E : Type} (f : Nat → T → Except E N) (a : Nat) :
    ∀ (cs : List T) (ns : List N), mapItems f a cs = Except.ok ns →
      ns.length = cs.length := by
  intro cs
  induction cs with
  | nil => intro ns h; cases h; rfl
  | cons c cs ih =>
    intro ns h
    rw [mapItems] at h
    cases hf : f a c with
    | error e => rw [hf] at h; cases h
    | ok n =>
      rw [hf] at h
      cases hm : mapItems f a cs with
      | error e => rw [hm] at h; cases h
      | ok ms =>
        rw [hm] at h
        cases h
        simp [ih ms hm]

theorem mapItems_isOk {T N E : Type} (f : Nat → T → Except E N) (a : Nat) :
    ∀ cs : List T, (∀ t ∈ cs, ∃ n, f a t = Except.ok n) →
      ∃ ns, mapItems f a cs = Except.ok ns := by
  intro cs
  induction cs with
  | nil => exact fun _ => ⟨[], rfl⟩
  | cons c cs ih =>
    intro h
    obtain ⟨n, hn⟩ := h c (by simp)
    obtain ⟨ns, hns⟩ := ih fun t ht => h t (by simp [ht])
    exact ⟨n :: ns, by rw [mapItems, hn, hns]⟩

theorem mapItems_error_mem {T N E : Type} (f : Nat → T → Except E N) (a : Nat) :
    ∀ (cs : List T) (e : E), mapItems f a cs = Except.error e →
      ∃ t ∈ cs, f a t = Except.error e := by
  intro cs
  induction cs with
  | nil => intro e h; cases h
  | cons c cs ih =>
    intro e h
    rw [mapItems] at h
    cases hf : f a c with
    | error e2 =>
      rw [hf] at h
      cases h
      exact ⟨c, by simp, hf⟩
    | ok n =>
      rw [hf] at h
      cases hm : mapItems f a cs with
      | error e2 =>
        rw [hm] at h
        cases h
        obtain ⟨t, ht, hft⟩ := ih e hm
        exact ⟨t, by simp [ht], hft⟩
      | ok ms => rw [hm] at h; cases h

theorem mapItems_forall2 {T N E : Type} (f : Nat → T → Except E N) (a : Nat) :
    ∀ (cs : List T) (ns : List N), mapItems f a cs = Except.ok ns →
      List.Forall₂ (fun t n => f a t = Except.ok n) cs ns := by
  intro cs
  induction cs with
  | nil => intro ns h; cases h; exact List.Forall₂.nil
  | cons c cs ih =>
    intro ns h
    rw [mapItems] at h
    cases hf : f a c with
    | error e => rw [hf] at h; cases h
    | ok n =>
      rw [hf] at h
      cases hm : mapItems f a cs with
      | error e => rw [hm] at h; cases h
      | ok ms =>
        rw [hm] at h
        cases h
        exact List.Forall₂.cons hf (ih ms hm)

theorem mapItems_ok_all {T N E : Type} (f : Nat → T → Except E N) (a : Nat) :
    ∀ (cs : List T) (ns : List N), mapItems f a cs = Except.ok ns →
      ∀ t ∈ cs, ∃ n, f a t = Except.ok n := by
  intro cs
  induction cs with
  | nil => intro ns _ t ht; cases ht
  | cons c cs ih =>
    intro ns h t ht
    rw [mapItems] at h
    cases hf : f a c with
    | error e => rw [hf] at h; cases h
    | ok n =>
      rw [hf] at h
      cases hm : mapItems f a cs with
      | error e => rw [hm] at h; cases h
      | ok ms =>
        rcases List.mem_cons.mp ht with rfl | ht2
        · exact ⟨n, hf⟩
        · exact ih ms hm t ht2

theorem mapColl_ok_all {T N E : Type} (f : Nat → T → Except E N) :
    ∀ (c : TieredMulti T) (d : TieredMulti N), mapColl f c = Except.ok d →
      ∀ p ∈ iter_items c, ∃ n, f p.1 p.2 = Except.ok n := by
  intro c
  induction c with
  | nil =>
    intro d _ p hp
    simp [iter_items] at hp
  | cons q rest ih =>
    obtain ⟨a, cs⟩ := q
    intro d h p hp
    rw [mapColl] at h
    cases hm : mapItems f a cs with
    | error e => rw [hm] at h; cases h
    | ok ns =>
      rw [hm] at h
      cases hr : mapColl f rest with
      | error e => rw [hr] at h; cases h
      | ok r =>
        rw [iter_items] at hp
        rcases List.mem_append.mp hp with h1 | h2
        · rcases List.mem_map.mp h1 with ⟨t, ht, rfl⟩
          exact mapItems_ok_all f a cs ns hm t ht
        · exact ih r hr p h2

theorem mapColl_error_mem {T N E : Type} (f : Nat → T → Except E N) :
    ∀ (c : TieredMulti T) (e : E), mapColl f c = Except.error e →
      ∃ p ∈ iter_items c, f p.1 p.2 = Except.error e := by
  intro c
  induction c with
  | nil => intro e herr; cases herr
  | cons p rest ih =>
    obtain ⟨a, cs⟩ := p
    intro e herr
    rw [mapColl] at herr
    cases hm : mapItems f a cs with
    | error e2 =>
      rw [hm] at herr
      cases herr
      obtain ⟨t, ht, hft⟩ := mapItems_error_mem f a cs e hm
      exact ⟨(a, t), by simp [iter_items, List.mem_append, List.mem_map]; exact Or.inl ht, hft⟩
    | ok ns =>
      rw [hm] at herr
      cases hr : mapColl f rest with
      | error e2 =>
        rw [hr] at herr
        cases herr
        obtain ⟨q, hq, hfq⟩ := ih e hr
        exact ⟨q, by simp [iter_items, List.mem_append]; exact Or.inr hq, hfq⟩
      | ok r => rw [hr] at herr; cases herr

theorem structural_eq_of_shape {T O : Type} :
    ∀ (d : TieredMulti T) (c : TieredMulti O), tiers d = tiers c →
      d.map (fun p => p.2.length) = c.map (fun p => p.2.length) →
      structural_eq d c = true := by
  intro d
  induction d with
  | nil =>
    intro c ht _
    have : c = [] := by
      cases c with
      | nil => rfl
      | cons q qs => simp [tiers] at ht
    subst this
    rfl
  | cons p d ih =>
    intro c ht hl
    cases c with
    | nil => simp [tiers] at ht
    | cons q qs =>
      simp only [tiers, List.map_cons, List.cons.injEq] at ht hl
      have hrest := ih qs (by simpa [tiers] using ht.2) hl.2
      simp only [structural_eq, tiers, List.map_cons, Bool.and_eq_true, beq_iff_eq,
        List.cons.injEq, List.zip_cons_cons, List.all_cons, beq_iff_eq] at hrest ⊢
      exact ⟨⟨ht.1, hrest.1⟩, hl.1, hrest.2⟩

/-- C7: `map(f)` with an `f` that succeeds on every `(tier, item)` pair of the
collection returns `Ok` of a collection with identical tier keys, identical
per-tier counts and the per-tier items transformed in place, in order
(stated by the nested `Forall₂`; hence structurally equal to the input, and
for a total `f` literally the tier-preserving map); if `f` fails on some
item, `map` returns `Err` carrying an error value `f` produced on one of the
input's items — it never returns `Ok` — and no partial collection escapes. -/
theorem c7_map : ∀ (T N E : Type) (c : TieredMulti T),
    (∀ g : Nat → T → N,
      mapColl (fun a t => (Except.ok (g a t) : Except E N)) c
        = Except.ok (c.map (fun p => (p.1, p.2.map (g p.1)))))
    ∧ (∀ f : Nat → T → Except E N,
        (∀ p ∈ iter_items c, ∃ n, f p.1 p.2 = Except.ok n) →
        ∃ d, mapColl f c = Except.ok d
          ∧ List.Forall₂ (fun p q => p.1 = q.1
              ∧ List.Forall₂ (fun t n => f p.1 t = Except.ok n) p.2 q.2) c d
          ∧ tiers d = tiers c
          ∧ d.map (fun p => p.2.length) = c.map (fun p => p.2.length)
          ∧ structural_eq d c = true)
    ∧ (∀ (f : Nat → T → Except E N) (e : E), mapColl f c = Except.error e →
        ∃ p ∈ iter_items c, f p.1 p.2 = Except.error e)
    ∧ (∀ f : Nat → T → Except E N,
        (∃ p ∈ iter_items c, ∃ e, f p.1 p.2 = Except.error e) →
        ∃ e, mapColl f c = Except.error e
          ∧ ∃ p ∈ iter_items c, f p.1 p.2 = Except.error e) := by
  intro T N E c
  refine ⟨fun g => ?_, fun f hok => ?_, fun f e herr => mapColl_error_mem f c e herr,
    fun f hfail => ?_⟩
  · induction c with
    | nil => rfl
    | cons p rest ih =>
      obtain ⟨a, cs⟩ := p
      rw [mapColl, mapItems_ok, ih]
      rfl
  · induction c with
    | nil => exact ⟨[], rfl, List.Forall₂.nil, rfl, rfl, rfl⟩
    | cons p rest ih =>
      obtain ⟨a, cs⟩ := p
      obtain ⟨ns, hns⟩ := mapItems_isOk f a cs fun t ht =>
        hok (a, t) (by simp [iter_items, List.mem_append, List.mem_map]; exact Or.inl ht)
      obtain ⟨d, hd, hf2, hdt, hdl, -⟩ := ih fun p hp =>
        hok p (by simp [iter_items, List.mem_append]; exact Or.inr hp)
      refine ⟨(a, ns) :: d, by rw [mapColl, hns, hd],
        List.Forall₂.cons ⟨rfl, mapItems_forall2 f a cs ns hns⟩ hf2, ?_, ?_, ?_⟩
      · simp [tiers] at hdt ⊢; exact hdt
      · simp [hdl, mapItems_length f a cs ns hns]
      · apply structural_eq_of_shape
        · simp [tiers] at hdt ⊢; exact hdt
        · simp [hdl, mapItems_length f a cs ns hns]
  · obtain ⟨p, hp, e0, he0⟩ := hfail
    cases hcol : mapColl f c with
    | ok d =>
      obtain ⟨n, hn⟩ := mapColl_ok_all f c d hcol p hp
      rw [he0] at hn
      cases hn
    | error e => exact ⟨e, rfl, mapColl_error_mem f c e hcol⟩

/-- C7 witness: the always-succeeding identity transformation on a concrete
collection, with keys, counts and per-item order preserved. -/
theorem c7_map_witness :
    ∃ d, mapColl (fun _ t => (Except.ok t : Except Unit Nat))
        ([(2, [7]), (5, [8, 9])] : TieredMulti Nat) = Except.ok d
      ∧ List.Forall₂ (fun p q => p.1 = q.1
          ∧ List.Forall₂ (fun t n => (Except.ok t : Except Unit Nat) = Except.ok n)
              p.2 q.2)
          ([(2, [7]), (5, [8, 9])] : TieredMulti Nat) d
      ∧ tiers d = tiers ([(2, [7]), (5, [8, 9])] : TieredMulti Nat)
      ∧ d.map (fun p => p.2.length)
          = ([(2, [7]), (5, [8, 9])] : TieredMulti Nat).map (fun p => p.2.length)
      ∧ structural_eq d ([(2, [7]), (5, [8, 9])] : TieredMulti Nat) = true :=
  (c7_map Nat Nat Unit [(2, [7]), (5, [8, 9])]).2.1 (fun _ t => Except.ok t)
    (fun p _ => ⟨p.2, rfl⟩)

/-!  Representation Engine proofs (claims C2 and C5). -/

theorem tieredUpdate_keys_mem (m : Tiered Nat) (a : Nat) (f : Nat → Nat) :
    (m.map Prod.fst).Pairwise (fun x y => x < y) → a ∈ m.map Prod.fst →
    (tieredUpdate m a f).map Prod.fst = m.map Prod.fst := by
  induction m with
  | nil => intro _ ha; cases ha
  | cons p rest ih =>
    obtain ⟨k, v⟩ := p
    intro hs ha
    have hcons := List.pairwise_cons.mp hs
    rcases (by simpa using ha : a = k ∨ a ∈ rest.map Prod.fst) with rfl | har
    · rw [tieredUpdate, if_neg (lt_irrefl a), if_pos rfl]
      simp
    · have hlt : k < a := hcons.1 a har
      rw [tieredUpdate, if_neg (by omega), if_neg (by omega)]
      simp [ih hcons.2 har]

theorem tieredUpdate_keys_top (m : Tiered Nat) (a : Nat) (f : Nat → Nat) :
    (∀ k ∈ m.map Prod.fst, k < a) →
    (tieredUpdate m a f).map Prod.fst = m.map Prod.fst ++ [a] := by
  induction m with
  | nil => intro _; rfl
  | cons p rest ih =>
    obtain ⟨k, v⟩ := p
    intro h
    have hk : k < a := h k (by simp)
    rw [tieredUpdate, if_neg (by omega), if_neg (by omega)]
    simp [ih fun x hx => h x (by simp [hx])]

theorem phase1_keys {V : Type} (cur : TieredMulti V) (sets : Nat) :
    ∀ (ts : List Nat) (rem : Nat) (d : Tiered Nat) (p : Nat × Tiered Nat),
      ts.Pairwise (fun x y => x < y) →
      (∀ k ∈ d.map Prod.fst, ∀ t ∈ ts, k < t) →
      phase1 cur sets ts rem d = some p →
      p.2.map Prod.fst = d.map Prod.fst ++ ts := by
  intro ts
  induction ts with
  | nil =>
    intro rem d p _ _ hp
    cases hp
    simp
  | cons t ts ih =>
    intro rem d p hs hbound hp
    rw [phase1] at hp
    by_cases ht : t = 0
    · rw [if_pos ht] at hp; cases hp
    · rw [if_neg ht] at hp
      set add := min (rem / t)
        (sets - ((tieredGet cur t).map List.length).getD 0) with hadd
      by_cases hg : t * add ≤ rem
      · rw [if_pos hg] at hp
        have hcons := List.pairwise_cons.mp hs
        have hkeys := tieredUpdate_keys_top d t (fun _ => add)
          (fun k hk => hbound k hk t (by simp))
        have := ih (rem - t * add) (tieredUpdate d t (fun _ => add)) p hcons.2
          (fun k hk t2 ht2 => by
            rw [hkeys] at hk
            rcases List.mem_append.mp hk with hk1 | hk2
            · exact hbound k hk1 t2 (by simp [ht2])
            · simp at hk2
              subst hk2
              exact hcons.1 t2 ht2) hp
        rw [this, hkeys, List.append_assoc]
        rfl
      · rw [if_neg hg] at hp; cases hp

theorem phase2_keys :
    ∀ (ts : List Nat) (rem : Nat) (d : Tiered Nat) (p : Nat × Tiered Nat),
      (d.map Prod.fst).Pairwise (fun x y => x < y) →
      (∀ t ∈ ts, t ∈ d.map Prod.fst) →
      phase2 ts rem d = some p →
      p.2.map Prod.fst = d.map Prod.fst := by
  intro ts
  induction ts with
  | nil =>
    intro rem d p _ _ hp
    cases hp
    rfl
  | cons t ts ih =>
    intro rem d p hs hmem hp
    rw [phase2] at hp
    by_cases ht : t = 0
    · rw [if_pos ht] at hp; cases hp
    · rw [if_neg ht] at hp
      have hkeys := tieredUpdate_keys_mem d t (fun v => v + rem / t) hs
        (hmem t (by simp))
      have := ih (rem % t) (tieredUpdate d t (fun v => v + rem / t)) p
        (by rw [hkeys]; exact hs)
        (fun t2 ht2 => by rw [hkeys]; exact hmem t2 (by simp [ht2])) hp
      rw [this, hkeys]

/-- C2: whenever `represent_amount(T, H, K, N)` returns normally (rather than
aborting on its checked post-condition), the returned per-tier counts are
keyed exactly by the catalog tiers and satisfy `Σ tier × count = T`; a
violation of the post-condition is the fatal abort outcome `none`, never a
silently wrong result. -/
theorem c2_represent_amount : ∀ (V K : Type) (amount : Nat) (cur : TieredMulti V)
    (cat : Tiered K) (sets : Nat) (d : Tiered Nat),
    sortedTiers cat → represent_amount amount cur cat sets = some d →
    (d.map (fun p => p.1 * p.2)).sum = amount
      ∧ d.map Prod.fst = cat.map Prod.fst := by
  intro V K amount cur cat sets d hsort hrep
  rw [represent_amount] at hrep
  cases h1 : phase1 cur sets (cat.map Prod.fst) amount [] with
  | none => simp [h1] at hrep
  | some p1 =>
    simp only [h1] at hrep
    cases h2 : phase2 (cat.map Prod.fst).reverse p1.1 p1.2 with
    | none => simp [h2] at hrep
    | some p2 =>
      simp only [h2] at hrep
      by_cases hsum : (p2.2.map (fun p => p.1 * p.2)).sum = amount
      · rw [if_pos hsum] at hrep
        cases hrep
        have hk1 : p1.2.map Prod.fst = cat.map Prod.fst := by
          have := phase1_keys cur sets (cat.map Prod.fst) amount [] p1
            (by simpa [sortedTiers] using hsort) (by simp) h1
          simpa using this
        have hk2 : p2.2.map Prod.fst = cat.map Prod.fst := by
          rw [phase2_keys (cat.map Prod.fst).reverse p1.1 p1.2 p2
            (by rw [hk1]; simpa [sortedTiers] using hsort)
            (fun t ht => by rw [hk1]; exact List.mem_reverse.mp ht) h2, hk1]
        exact ⟨hsum, hk2⟩
      · rw [if_neg hsum] at hrep; cases hrep

/-- C2 witness: a concrete successful representation. -/
theorem c2_represent_amount_witness :
    ((([(1000, 2)] : Tiered Nat).map (fun p => p.1 * p.2)).sum = 2000
      ∧ ([(1000, 2)] : Tiered Nat).map Prod.fst
          = ([(1000, ())] : Tiered Unit).map Prod.fst) :=
  c2_represent_amount Unit Unit 2000 ([] : TieredMulti Unit) [(1000, ())] 0
    [(1000, 2)] (by decide) (by rfl)

/-- Follows the wording of claim C5 (spec §4.3, phase 1): iterate catalog tiers
ascending, at each tier assign `min(floor(remaining/tier), max(0, set_count −
current count at tier))` new items and decrement the remaining amount
accordingly. -/
def phase1Spec {V : Type} (cur : TieredMulti V) (sets : Nat) :
    List Nat → Nat → Tiered Nat → Nat × Tiered Nat
  | [], rem, d => (rem, d)
  | t :: ts, rem, d =>
    let add := min (rem / t) (sets - ((tieredGet cur t).map List.length).getD 0)
    phase1Spec cur sets ts (rem - t * add) (tieredUpdate d t (fun _ => add))

/-- Follows the wording of claim C5 (spec §4.3, phase 2): iterate catalog tiers
descending, at each tier assign `floor(remaining/tier)` additional items and
reduce remaining to `remaining mod tier`. -/
def phase2Spec : List Nat → Nat → Tiered Nat → Nat × Tiered Nat
  | [], rem, d => (rem, d)
  | t :: ts, rem, d => phase2Spec ts (rem % t) (tieredUpdate d t (fun v => v + rem / t))

/-- The two claim-worded phases composed (phase 2 runs over the descending
catalog tiers on phase 1's leftover amount). -/
def representSpec {V K : Type} (amount : Nat) (cur : TieredMulti V)
    (cat : Tiered K) (sets : Nat) : Nat × Tiered Nat :=
  phase2Spec (cat.map Prod.fst).reverse
    (phase1Spec cur sets (cat.map Prod.fst) amount []).1
    (phase1Spec cur sets (cat.map Prod.fst) amount []).2

theorem phase1_eq_spec {V : Type} (cur : TieredMulti V) (sets : Nat) :
    ∀ (ts : List Nat) (rem : Nat) (d : Tiered Nat), (∀ t ∈ ts, 0 < t) →
      phase1 cur sets ts rem d = some (phase1Spec cur sets ts rem d) := by
  intro ts
  induction ts with
  | nil => intro rem d _; rfl
  | cons t ts ih =>
    intro rem d hpos
    have ht : 0 < t := hpos t (by simp)
    have hadd : min (rem / t) (sets - ((tieredGet cur t).map List.length).getD 0)
        ≤ rem / t := Nat.min_le_left _ _
    have hg : t * min (rem / t) (sets - ((tieredGet cur t).map List.length).getD 0)
        ≤ rem :=
      le_trans (le_trans (Nat.mul_le_mul_left t hadd)
        (le_of_eq (Nat.mul_comm t (rem / t)))) (Nat.div_mul_le_self rem t)
    simp only [phase1, phase1Spec, if_neg (by omega : ¬ t = 0), if_pos hg]
    exact ih _ _ fun x hx => hpos x (by simp [hx])

theorem phase2_eq_spec :
    ∀ (ts : List Nat) (rem : Nat) (d : Tiered Nat), (∀ t ∈ ts, 0 < t) →
      phase2 ts rem d = some (phase2Spec ts rem d) := by
  intro ts
  induction ts with
  | nil => intro rem d _; rfl
  | cons t ts ih =>
    intro rem d hpos
    have ht : 0 < t := hpos t (by simp)
    simp only [phase2, phase2Spec, if_neg (by omega : ¬ t = 0)]
    exact ih _ _ fun x hx => hpos x (by simp [hx])

/-- Holdings {1 sat × 1, 2 sat × 3, 3 sat × 2} (msats). -/
def holdings123 : TieredMulti Unit :=
  [(1000, [()]), (2000, [(), (), ()]), (3000, [(), ()])]

/-- Catalog with tiers {1, 2, 3, 4} sat (msats). -/
def catalog1234 : Tiered Unit :=
  [(1000, ()), (2000, ()), (3000, ()), (4000, ())]

/-- C5: over a catalog of positive tiers, `represent_amount` is exactly the
claim's two-phase algorithm (`phase1Spec` then `phase2Spec`, ending with the
post-condition gate), and on the worked examples with catalog {1,2,3,4} sat,
holdings {1×1, 2×3, 3×2}, target 6 sat it returns {1:3, 2:0, 3:1, 4:0} for
set-count 3 and {1:2, 2:0, 3:0, 4:1} for set-count 2. -/
theorem c5_represent_two_phase :
    (∀ (V K : Type) (cur : TieredMulti V) (cat : Tiered K) (sets amount : Nat),
      (∀ t ∈ cat.map Prod.fst, 0 < t) →
      represent_amount amount cur cat sets
        = if ((representSpec amount cur cat sets).2.map (fun p => p.1 * p.2)).sum
              = amount
          then some (representSpec amount cur cat sets).2 else none)
    ∧ represent_amount 6000 holdings123 catalog1234 3
        = some [(1000, 3), (2000, 0), (3000, 1), (4000, 0)]
    ∧ represent_amount 6000 holdings123 catalog1234 2
        = some [(1000, 2), (2000, 0), (3000, 0), (4000, 1)] := by
  refine ⟨?_, by rfl, by rfl⟩
  intro V K cur cat sets amount hpos
  rw [represent_amount, phase1_eq_spec cur sets (cat.map Prod.fst) amount [] hpos]
  simp only
  rw [phase2_eq_spec (cat.map Prod.fst).reverse _ _
    fun t ht => hpos t (List.mem_reverse.mp ht)]
  rfl

/-- C5 witness: the phase characterisation at a concrete input. -/
theorem c5_represent_two_phase_witness :
    represent_amount 2000 ([] : TieredMulti Unit) ([(1000, ())] : Tiered Unit) 0
      = if ((representSpec 2000 ([] : TieredMulti Unit)
              ([(1000, ())] : Tiered Unit) 0).2.map (fun p => p.1 * p.2)).sum = 2000
        then some (representSpec 2000 ([] : TieredMulti Unit)
              ([(1000, ())] : Tiered Unit) 0).2 else none :=
  c5_represent_two_phase.1 Unit Unit [] [(1000, ())] 0 2000 (by decide)

/-!  Peer-Share Zipper proofs (claims C3 and C9). -/

/-- The tier of the next element a peer sequence would yield (0 if exhausted). -/
def headAmt {C : Type} : List (Nat × C) → Nat
  | [] => 0
  | (a, _) :: _ => a

theorem consStep_fatal {C : Type} (c : C) :
    consStep c (ZipStep.fatal : ZipStep C) = ZipStep.fatal := rfl

theorem consStep_done {C : Type} (c : C) :
    consStep c (ZipStep.done : ZipStep C) = ZipStep.done := rfl

theorem zipNextGo_fatal {C : Type} (a : Nat) :
    ∀ rest : List (List (Nat × C)), (∀ it ∈ rest, it ≠ []) →
      (∃ it ∈ rest, headAmt it ≠ a) → zipNextGo (some a) rest = ZipStep.fatal := by
  intro rest
  induction rest with
  | nil =>
    intro _ hex
    obtain ⟨it, hmem, -⟩ := hex
    cases hmem
  | cons it rest ih =>
    intro hne hex
    cases it with
    | nil => exact absurd rfl (hne [] (by simp))
    | cons p t =>
      obtain ⟨x, e⟩ := p
      by_cases hx : x = a
      · subst hx
        rw [zipNextGo, if_pos rfl]
        rw [ih (fun i hi => hne i (by simp [hi])) ?hex2]
        case hex2 =>
          obtain ⟨w, hw, hwa⟩ := hex
          rcases List.mem_cons.mp hw with rfl | hw2
          · exact (hwa rfl).elim
          · exact ⟨w, hw2, hwa⟩
        rfl
      · rw [zipNextGo, if_neg hx]

theorem zipNextGo_exhausted {C : Type} (a : Nat) :
    ∀ (pre post : List (List (Nat × C))),
      (∀ it ∈ pre, it ≠ [] ∧ headAmt it = a) →
      zipNextGo (some a) (pre ++ ([] : List (Nat × C)) :: post) = ZipStep.done := by
  intro pre
  induction pre with
  | nil => intro post _; rfl
  | cons it pre ih =>
    intro post h
    cases it with
    | nil => exact absurd rfl (h [] (by simp)).1
    | cons p t =>
      obtain ⟨x, e⟩ := p
      have hx : x = a := by simpa [headAmt] using (h ((x, e) :: t) (by simp)).2
      subst hx
      rw [List.cons_append, zipNextGo, if_pos rfl,
        ih post fun i hi => h i (by simp [hi]), consStep_done]

/-- C3 counterexample: a zipper over two sequences where the second is already
exhausted while the first still yields `(1, ·)`.  The advance step is the
silent end of iteration (`done`, i.e. Rust `return None`), not the fatal
condition the claim requires. -/
theorem c3_zip_counterexample :
    zipNext [[((1 : Nat), (0 : Nat))], ([] : List (Nat × Nat))] = ZipStep.done
    ∧ zipNext [[((1 : Nat), (0 : Nat))], ([] : List (Nat × Nat))] ≠ ZipStep.fatal :=
  ⟨rfl, by decide⟩

/-- C3 (amended): constructing the zipper over zero sequences is fatal, and an
advance step whose pulled elements disagree on the tier component is fatal;
but a step that finds some sequence exhausted (after any equal-tier pulls
before it) ends the iteration silently rather than aborting, even when other
sequences still yield elements. -/
theorem c3_zip_fatal_conditions : ∀ (C : Type),
    zipNew ([] : List (List (Nat × C))) = none
    ∧ (∀ (a : Nat) (c : C) (t0 : List (Nat × C)) (rest : List (List (Nat × C))),
        (∀ it ∈ rest, it ≠ []) → (∃ it ∈ rest, headAmt it ≠ a) →
        zipNext (((a, c) :: t0) :: rest) = ZipStep.fatal)
    ∧ (∀ (a : Nat) (pre post : List (List (Nat × C))),
        (∀ it ∈ pre, it ≠ [] ∧ headAmt it = a) →
        zipNext (pre ++ ([] : List (Nat × C)) :: post) = ZipStep.done) := by
  intro C
  refine ⟨rfl, fun a c t0 rest hne hex => ?_, fun a pre post h => ?_⟩
  · rw [zipNext, zipNextGo, zipNextGo_fatal a rest hne hex, consStep_fatal]
  · cases pre with
    | nil => rfl
    | cons it pre =>
      cases it with
      | nil => exact absurd rfl (h [] (by simp)).1
      | cons p t =>
        obtain ⟨x, e⟩ := p
        have hx : x = a := by simpa [headAmt] using (h ((x, e) :: t) (by simp)).2
        subst hx
        rw [List.cons_append, zipNext, zipNextGo,
          zipNextGo_exhausted x pre post fun i hi => h i (by simp [hi]),
          consStep_done]

/-- C3 witness: a concrete tier mismatch aborts, concretely. -/
theorem c3_zip_fatal_conditions_witness :
    zipNext [[((1 : Nat), (0 : Nat))], [(2, 0)]] = ZipStep.fatal :=
  (c3_zip_fatal_conditions Nat).2.1 1 0 [] [[(2, 0)]] (by decide)
    ⟨[(2, 0)], by decide, by decide⟩

theorem headItems_length {C : Type} :
    ∀ iters : List (List (Nat × C)), (∀ it ∈ iters, it ≠ []) →
      (headItems iters).length = iters.length := by
  intro iters
  induction iters with
  | nil => intro _; rfl
  | cons it rest ih =>
    intro h
    cases it with
    | nil => exact absurd rfl (h [] (by simp))
    | cons p t =>
      obtain ⟨x, e⟩ := p
      simp only [headItems, List.length_cons, ih fun i hi => h i (by simp [hi])]

theorem zipNextGo_yield {C : Type} (a : Nat) :
    ∀ iters : List (List (Nat × C)),
      (∀ it ∈ iters, it ≠ [] ∧ headAmt it = a) →
      zipNextGo (some a) iters = ZipStep.yield a (headItems iters) := by
  intro iters
  induction iters with
  | nil => intro _; rfl
  | cons it rest ih =>
    intro h
    cases it with
    | nil => exact absurd rfl (h [] (by simp)).1
    | cons p t =>
      obtain ⟨x, e⟩ := p
      have hx : x = a := by simpa [headAmt] using (h ((x, e) :: t) (by simp)).2
      subst hx
      rw [zipNextGo, if_pos rfl, ih fun i hi => h i (by simp [hi])]
      rfl

theorem zipRun_aligned {C : Type} :
    ∀ (A : List Nat) (iters : List (List (Nat × C))),
      iters ≠ [] → (∀ it ∈ iters, it.map Prod.fst = A) →
      zipRun A.length iters = some (zipExpected A iters)
      ∧ (zipExpected A iters).map Prod.fst = A
      ∧ ∀ s ∈ zipExpected A iters, s.2.length = iters.length := by
  intro A
  induction A with
  | nil =>
    intro iters hne hal
    cases iters with
    | nil => exact absurd rfl hne
    | cons it0 rest =>
      have h0 : it0 = [] := by
        have := hal it0 (by simp)
        cases it0 with
        | nil => rfl
        | cons p t => simp at this
      subst h0
      exact ⟨rfl, rfl, by simp [zipExpected]⟩
  | cons a A ih =>
    intro iters hne hal
    have hshape : ∀ it ∈ iters, ∃ e t, it = (a, e) :: t ∧ t.map Prod.fst = A := by
      intro it h
      have := hal it h
      cases it with
      | nil => simp at this
      | cons p t =>
        obtain ⟨x, e⟩ := p
        simp only [List.map_cons, List.cons.injEq] at this
        exact ⟨e, t, by rw [this.1], this.2⟩
    have hyield : zipNext iters = ZipStep.yield a (headItems iters) := by
      cases iters with
      | nil => exact absurd rfl hne
      | cons it0 rest =>
        obtain ⟨e, t, rfl, -⟩ := hshape it0 (by simp)
        rw [zipNext, zipNextGo, zipNextGo_yield a rest ?rest_ok]
        case rest_ok =>
          intro i hi
          obtain ⟨e2, t2, rfl, -⟩ := hshape i (by simp [hi])
          exact ⟨by simp, rfl⟩
        rfl
    have htails_ne : zipTails iters ≠ [] := by
      cases iters with
      | nil => exact absurd rfl hne
      | cons it0 rest => simp [zipTails]
    have htails_al : ∀ it ∈ zipTails iters, it.map Prod.fst = A := by
      intro it h
      rcases List.mem_map.mp h with ⟨it0, h0, rfl⟩
      obtain ⟨e, t, rfl, ht⟩ := hshape it0 h0
      simpa using ht
    obtain ⟨hrun, hfst, hlen⟩ := ih (zipTails iters) htails_ne htails_al
    refine ⟨?_, by simp [zipExpected, hfst], ?_⟩
    · simp only [List.length_cons, zipRun, hyield, hrun, Option.map_some]
      rfl
    · intro s hs
      simp only [zipExpected, List.mem_cons] at hs
      rcases hs with rfl | hs
      · have hne2 : ∀ it ∈ iters, it ≠ [] := by
          intro it h
          obtain ⟨e, t, rfl, -⟩ := hshape it h
          simp
        simpa using headItems_length iters hne2
      · rw [hlen s hs]
        simp [zipTails]

/-- C9: zipping `N ≥ 1` structurally equal peer sequences (all sharing the
tier sequence `A` of length `L`) yields exactly `L` steps and then ends; each
step carries the common tier of the pulled elements and a group of exactly `N`
items, the heads of the peer sequences in peer-input order
(`zipExpected`). -/
theorem c9_zip_aligned : ∀ (C : Type) (A : List Nat) (iters : List (List (Nat × C))),
    iters ≠ [] → (∀ it ∈ iters, it.map Prod.fst = A) →
    zipRun A.length iters = some (zipExpected A iters)
    ∧ (zipExpected A iters).length = A.length
    ∧ (zipExpected A iters).map Prod.fst = A
    ∧ ∀ s ∈ zipExpected A iters, s.2.length = iters.length := by
  intro C A iters hne hal
  obtain ⟨h1, h2, h3⟩ := zipRun_aligned A iters hne hal
  refine ⟨h1, ?_, h2, h3⟩
  have := congrArg List.length h2
  simpa using this

/-- C9 witness: two aligned peer sequences of length one. -/
theorem c9_zip_aligned_witness :
    zipRun ([1] : List Nat).length [[((1 : Nat), (0 : Nat))], [(1, 5)]]
        = some (zipExpected [1] [[(1, 0)], [(1, 5)]])
    ∧ (zipExpected ([1] : List Nat) [[((1 : Nat), (0 : Nat))], [(1, 5)]]).length
        = ([1] : List Nat).length
    ∧ (zipExpected ([1] : List Nat) [[((1 : Nat), (0 : Nat))], [(1, 5)]]).map Prod.fst
        = [1]
    ∧ ∀ s ∈ zipExpected ([1] : List Nat) [[((1 : Nat), (0 : Nat))], [(1, 5)]],
        s.2.length = [[((1 : Nat), (0 : Nat))], [(1, 5)]].length :=
  c9_zip_aligned Nat [1] [[(1, 0)], [(1, 5)]] (by decide) (by decide)

end Fedimint
